import Mathlib

/-!
Verification of the `tfgen` transform-graph library.

The development shallowly embeds the Rust sources (`src/lib.rs`, `src/se3.rs`)
into Lean:

* `SE3` embeds `nalgebra::Isometry3<f64>` (a translation together with a unit
  quaternion).  The `f64` arithmetic of the code is embedded as exact field
  arithmetic; no claim below depends on floating-point rounding.  For the
  graph development we instantiate the scalar field at `ℚ`, which keeps every
  definition executable and every concrete statement decidable.
* `TfGraph` embeds `petgraph::graph::UnGraph<String, SE3>`: a vector of node
  weights (frame names, indexed by position, exactly petgraph's `NodeIndex`)
  and a vector of edges (each storing its canonical source index, target
  index and weight, exactly petgraph's edge list).
* `petgraph::algo::is_cyclic_undirected` is a fold of a union–find over the
  edge list, answering `true` as soon as an edge joins two already-connected
  endpoints.  The union–find is embedded as an eagerly relabelling
  representative function `Nat → Nat`, which has the same observable
  behaviour (two indices are merged exactly when a processed edge connects
  their components).
* `petgraph::algo::astar` is invoked by the code with a zero heuristic and
  unit edge cost, i.e. as a plain shortest-path search.  It is embedded as
  `findPath`, a fuelled depth-first walk that never immediately backtracks.
  On the graphs this library ever searches (forests: see the invariant
  theorems below) every complete search returns the same unique simple path,
  so the embedding agrees with the library call there; all theorems about
  `queryTf` are restricted to graphs reachable by the public API.
-/

namespace Tfgen

/-- Rigid transform, embedding `nalgebra::Isometry3` as used through the alias
`pub type SE3 = na::Isometry3<f64>`: a translation vector and a rotation
stored as a (unit) quaternion, over an arbitrary scalar field `K` standing in
for `f64`. -/
structure SE3 (K : Type) where
  tx : K
  ty : K
  tz : K
  qx : K
  qy : K
  qz : K
  qw : K
deriving DecidableEq, Repr

namespace SE3

variable {K : Type} [Field K]

/-- Embeds `SE3::identity()`: zero translation, identity rotation. -/
def identity : SE3 K := ⟨0, 0, 0, 0, 0, 0, 1⟩

/-- Rotation of a vector by the (unit) quaternion part of `r`, the formula
used by `nalgebra` for `UnitQuaternion * Vector3`:
`v + 2 * u × (u × v + w • v)` with `u = (qx, qy, qz)`. -/
def rotate (r : SE3 K) (vx vy vz : K) : K × K × K :=
  let cx := r.qy * vz - r.qz * vy + r.qw * vx
  let cy := r.qz * vx - r.qx * vz + r.qw * vy
  let cz := r.qx * vy - r.qy * vx + r.qw * vz
  ( vx + 2 * (r.qy * cz - r.qz * cy)
  , vy + 2 * (r.qz * cx - r.qx * cz)
  , vz + 2 * (r.qx * cy - r.qy * cx) )

/-- Embeds isometry composition `lhs * rhs` of `nalgebra`:
quaternion product for the rotations, `t₁ + R₁ t₂` for the translation. -/
def mul (l r : SE3 K) : SE3 K :=
  let t := l.rotate r.tx r.ty r.tz
  { tx := l.tx + t.1
    ty := l.ty + t.2.1
    tz := l.tz + t.2.2
    qx := l.qw * r.qx + l.qx * r.qw + l.qy * r.qz - l.qz * r.qy
    qy := l.qw * r.qy - l.qx * r.qz + l.qy * r.qw + l.qz * r.qx
    qz := l.qw * r.qz + l.qx * r.qy - l.qy * r.qx + l.qz * r.qw
    qw := l.qw * r.qw - l.qx * r.qx - l.qy * r.qy - l.qz * r.qz }

instance : Mul (SE3 K) := ⟨mul⟩

/-- Embeds `Isometry3::inverse`: the rotation becomes the conjugate quaternion
(`nalgebra`'s `UnitQuaternion::inverse`), the translation becomes
`-(R⁻¹ t)`. -/
def inverse (s : SE3 K) : SE3 K :=
  let conj : SE3 K := ⟨0, 0, 0, -s.qx, -s.qy, -s.qz, s.qw⟩
  let t := conj.rotate s.tx s.ty s.tz
  { tx := -t.1
    ty := -t.2.1
    tz := -t.2.2
    qx := -s.qx
    qy := -s.qy
    qz := -s.qz
    qw := s.qw }

end SE3

/-- Scalar instantiation used for the graph development: exact rationals
standing in for `f64`. -/
abbrev SE3Q := SE3 ℚ

/-- One edge of the petgraph edge list: canonical source node index, target
node index, and its transform weight. -/
structure Edge where
  src : Nat
  dst : Nat
  w : SE3Q
deriving DecidableEq, Repr

instance : Inhabited Edge := ⟨⟨0, 0, SE3.identity⟩⟩

/-- Embeds `TfGraph { g: UnGraph<String, SE3> }`: the node-weight vector
(frame names, `NodeIndex` = list position) and the edge vector. -/
structure TfGraph where
  nodes : List String
  edges : List Edge
deriving DecidableEq, Repr

/-- Embeds `TfGraph::new()` / `Default::default()`: the empty graph. -/
def emptyGraph : TfGraph := ⟨[], []⟩

/-- Embeds petgraph's `Direction` as returned by `find_edge_undirected`:
`Outgoing` when the stored edge runs `a → b`, `Incoming` when `b → a`. -/
inductive EdgeDir where
  | Outgoing
  | Incoming
deriving DecidableEq, Repr

/-- Embeds `TfGraph::find_node`: the first node index whose name equals `s`
(`self.g.node_indices().find(|ix| self.g[*ix] == s)`). -/
def findNode (g : TfGraph) (s : String) : Option Nat :=
  List.findIdx? (fun t => t == s) g.nodes

/-- Embeds `TfGraph::find_or_add_node`: reuse the found index, otherwise
append a node (petgraph `add_node` appends, yielding index = old length). -/
def findOrAddNode (g : TfGraph) (s : String) : TfGraph × Nat :=
  match findNode g s with
  | some i => (g, i)
  | none => ({ g with nodes := g.nodes ++ [s] }, g.nodes.length)

/-- Embeds petgraph `Graph::find_edge_undirected(a, b)`: an edge stored as
`a → b` is reported with `Outgoing` (petgraph scans the outgoing adjacency of
`a` first), otherwise an edge stored as `b → a` is reported with
`Incoming`. -/
def findEdgeUndirected (es : List Edge) (a b : Nat) : Option (Nat × EdgeDir) :=
  match List.findIdx? (fun e => e.src == a && e.dst == b) es with
  | some i => some (i, EdgeDir.Outgoing)
  | none =>
    match List.findIdx? (fun e => e.src == b && e.dst == a) es with
    | some i => some (i, EdgeDir.Incoming)
    | none => none

/-- Embeds the weight overwrite `self.g[eid] = tf`: replace the weight of the
edge at index `i`, keeping its endpoints. -/
def setWeight : List Edge → Nat → SE3Q → List Edge
  | [], _, _ => []
  | e :: es, 0, tf => { e with w := tf } :: es
  | e :: es, i + 1, tf => e :: setWeight es i tf

/-- Embeds petgraph `Graph::remove_edge` on the edge vector: `Vec::swap_remove`
moves the last edge into slot `i` and pops the last slot (when `i` is the last
index this simply pops). -/
def swapRemove (l : List α) (i : Nat) : List α :=
  match l.getLast? with
  | none => l
  | some x => (l.dropLast).set i x

/-- Relabelling union of the representative function: merge the component of
`b` into the component of `a`. -/
def unionStep (rep : Nat → Nat) (a b : Nat) : Nat → Nat :=
  fun x => if rep x = rep b then rep a else rep x

/-- Embeds the union–find loop of `petgraph::algo::is_cyclic_undirected` (in
the `acyclic` sense): process the edge endpoint pairs in order; report
`false` (cyclic) as soon as a pair is already connected, else merge. -/
def acyclicGo (rep : Nat → Nat) : List (Nat × Nat) → Bool
  | [] => true
  | (a, b) :: es => if rep a = rep b then false else acyclicGo (unionStep rep a b) es

/-- Representative function after unconditionally processing all merges of an
edge-pair list (the state the union–find loop threads along). -/
def runRep (rep : Nat → Nat) : List (Nat × Nat) → Nat → Nat
  | [] => rep
  | (a, b) :: es => runRep (unionStep rep a b) es

/-- Endpoint pairs of the edge list, the input `is_cyclic_undirected`
processes (edge weights are irrelevant to the cycle check). -/
def edgePairs (es : List Edge) : List (Nat × Nat) :=
  es.map fun e => (e.src, e.dst)

/-- Embeds `petgraph::algo::is_cyclic_undirected`. -/
def isCyclicUndirected (g : TfGraph) : Bool :=
  !acyclicGo id (edgePairs g.edges)

/-- Embeds `TfGraph::add_tf`.  Mutation of `&mut self` is embedded as
returning the new graph next to the `Option<()>` result.  Every step follows
the source: find-or-add both endpoints; overwrite the weight in place if an
edge is stored in the same canonical direction, else append a new edge; if
the cycle detector now fires, remove the touched edge (swap-remove, as
petgraph's `remove_edge` does on the edge vector) and fail. -/
def addTf (g : TfGraph) (src dst : String) (tf : SE3Q) : TfGraph × Option Unit :=
  let p1 := findOrAddNode g src
  let p2 := findOrAddNode p1.1 dst
  let a := p1.2
  let b := p2.2
  let g2 := p2.1
  let step :=
    match findEdgeUndirected g2.edges a b with
    | some (eid, EdgeDir.Outgoing) => ({ g2 with edges := setWeight g2.edges eid tf }, eid)
    | _ => ({ g2 with edges := g2.edges ++ [({ src := a, dst := b, w := tf } : Edge)] }, g2.edges.length)
  if isCyclicUndirected step.1 then
    ({ step.1 with edges := swapRemove step.1.edges step.2 }, none)
  else (step.1, some ())

/-- Tail of `add_tf` after both endpoints are resolved to indices `a`, `b`
(lines 39–51 of `lib.rs`): overwrite or append, cycle-check, rollback.
`addTf` is definitionally this core applied after `find_or_add_node`; the
decomposition only serves the proofs. -/
def addTfCore (g2 : TfGraph) (a b : Nat) (tf : SE3Q) : TfGraph × Option Unit :=
  let step :=
    match findEdgeUndirected g2.edges a b with
    | some (eid, EdgeDir.Outgoing) => ({ g2 with edges := setWeight g2.edges eid tf }, eid)
    | _ => ({ g2 with edges := g2.edges ++ [({ src := a, dst := b, w := tf } : Edge)] }, g2.edges.length)
  if isCyclicUndirected step.1 then
    ({ step.1 with edges := swapRemove step.1.edges step.2 }, none)
  else (step.1, some ())

/-- A sequence of `add_transform` calls applied to the empty graph
(`TfGraph::default()`), earliest call first. -/
def applyCalls (cs : List (String × String × SE3Q)) : TfGraph :=
  cs.foldl (fun g c => (addTf g c.1 c.2.1 c.2.2).1) emptyGraph

/-- Embeds `TfGraph::reset`: `self.g.clear()`. -/
def reset (_ : TfGraph) : TfGraph := emptyGraph

/-- Embeds `TfGraph::load_json` after the `serde_json` parse: the parse
outcome of the external reader is the `Option TfGraph` argument (`none` for a
parse error).  A parse failure or a cyclic candidate leaves the current graph
untouched and fails; otherwise the candidate replaces the graph wholesale.
The returned `Bool` is `true` for `Ok(())`. -/
def loadJson (g : TfGraph) (parsed : Option TfGraph) : TfGraph × Bool :=
  match parsed with
  | none => (g, false)
  | some cand => if isCyclicUndirected cand then (g, false) else (cand, true)

/-- Undirected neighbours of node `a`, as enumerated from the edge list. -/
def neighbors (es : List Edge) (a : Nat) : List Nat :=
  es.filterMap fun e =>
    if e.src = a then some e.dst else if e.dst = a then some e.src else none

/-- Embeds the path search of `query_tf`.  The source calls
`petgraph::algo::astar` with unit edge cost and zero heuristic, i.e. a plain
complete shortest-path search returning the node list from `cur` to `dst`.
The embedding is a fuelled depth-first walk that never immediately
backtracks; on the forests this library maintains (see the invariant
theorems) it returns the unique simple path, as the library search does. -/
def findPath (es : List Edge) (dst : Nat) : Nat → Option Nat → Nat → Option (List Nat)
  | 0, _, _ => none
  | fuel + 1, avoid, cur =>
    if cur = dst then some [cur]
    else
      (neighbors es cur).findSome? fun nb =>
        if some nb = avoid then none
        else (findPath es dst fuel (some cur) nb).map (cur :: ·)

/-- Result of `TfGraph::query_tf`.  `panicked` marks the `.unwrap()` in the
edge-lookup loop (the only way the source function can abort);
`notFound` is the source's `None`. -/
inductive QueryResult where
  | panicked
  | notFound
  | found (tf : SE3Q) (path : List String)
deriving DecidableEq, Repr

/-- Tests whether a query result is the embedded `.unwrap()` panic. -/
def QueryResult.isPanicked : QueryResult → Bool
  | .panicked => true
  | _ => false

/-- Embeds the composition loop of `query_tf`: walk consecutive node pairs of
the path, look the edge up with `find_edge_undirected` (its `.unwrap()`
failure is `none` here), take the weight in canonical direction and its
inverse otherwise, and accumulate `tf = lhs * tf`. -/
def composeAlong (es : List Edge) (tf : SE3Q) : List Nat → Option SE3Q
  | [] => some tf
  | [_] => some tf
  | a :: b :: rest =>
    match findEdgeUndirected es a b with
    | none => none
    | some (i, dir) =>
      let lhs :=
        match dir with
        | EdgeDir.Outgoing => (es.getD i default).w
        | EdgeDir.Incoming => (es.getD i default).w.inverse
      composeAlong es (lhs * tf) (b :: rest)

/-- Embeds `TfGraph::query_tf`: resolve both names, search for a path, then
compose along it, returning the transform together with the frame names along
the path. -/
def queryTf (g : TfGraph) (src dst : String) : QueryResult :=
  match findNode g src, findNode g dst with
  | some s, some d =>
    match findPath g.edges d g.nodes.length none s with
    | none => QueryResult.notFound
    | some p =>
      match composeAlong g.edges SE3.identity p with
      | none => QueryResult.panicked
      | some tf => QueryResult.found tf (p.map fun i => g.nodes.getD i "")
  | _, _ => QueryResult.notFound

/-! ### Walks, paths and derived graph predicates (used to state the claims) -/

/-- Undirected adjacency of two node indices: some stored edge joins them in
either direction. -/
def adjacentB (es : List Edge) (a b : Nat) : Bool :=
  es.any fun e => (e.src == a && e.dst == b) || (e.src == b && e.dst == a)

/-- A list of node indices is a walk: consecutive entries are adjacent. -/
def isChainB (es : List Edge) : List Nat → Bool
  | [] => true
  | [_] => true
  | a :: b :: rest => adjacentB es a b && isChainB es (b :: rest)

/-- Decidable duplicate-freedom of a node-index list. -/
def nodupB : List Nat → Bool
  | [] => true
  | x :: xs => !(xs.contains x) && nodupB xs

/-- A simple path: a duplicate-free walk. -/
def isPathB (es : List Edge) (p : List Nat) : Bool :=
  isChainB es p && nodupB p

/-- A simple path from node `a` to node `b`: a nonempty duplicate-free walk
whose first entry is `a` and last entry is `b` (for `a = b` this is the
one-node path `[a]`). -/
def IsPathFromTo (es : List Edge) (a b : Nat) (p : List Nat) : Prop :=
  isChainB es p = true ∧ nodupB p = true ∧ p.head? = some a ∧ p.getLast? = some b

instance (es : List Edge) (a b : Nat) (p : List Nat) : Decidable (IsPathFromTo es a b p) :=
  inferInstanceAs (Decidable (_ ∧ _ ∧ _ ∧ _))

/-- Canonical unordered key of an edge's endpoint pair. -/
def pairKey (e : Edge) : Nat × Nat :=
  if e.src ≤ e.dst then (e.src, e.dst) else (e.dst, e.src)

/-- Decides that no two edges share the same unordered endpoint pair. -/
def nodupKeysB : List Edge → Bool
  | [] => true
  | e :: es => !(es.any fun e2 => pairKey e2 == pairKey e) && nodupKeysB es

/-- Decides that the graph stores no self-loop and at most one edge between
any pair of frames. -/
def edgesSimple (g : TfGraph) : Bool :=
  nodupKeysB g.edges && g.edges.all fun e => e.src != e.dst

/-- Every edge references existing node indices. -/
def edgesValid (g : TfGraph) : Prop :=
  ∀ e ∈ g.edges, e.src < g.nodes.length ∧ e.dst < g.nodes.length

/-- Invariant of graphs reachable through the public API: the cycle detector
is quiet, frame names are distinct, and edges reference existing nodes. -/
def Inv (g : TfGraph) : Prop :=
  acyclicGo id (edgePairs g.edges) = true ∧ g.nodes.Nodup ∧ edgesValid g

/-- Specification-side transform of the edge between consecutive path nodes,
following the spec's words: take the transform of the edge between them if
traversed in its canonical direction, or its inverse if traversed against
it.  The fallback `identity` is never reached on a genuine path. -/
def specEdgeTransform (es : List Edge) (a b : Nat) : SE3Q :=
  match es.find? (fun e => e.src == a && e.dst == b) with
  | some e => e.w
  | none =>
    match es.find? (fun e => e.src == b && e.dst == a) with
    | some e => e.w.inverse
    | none => SE3.identity

/-- Specification-side composition along a path, following the spec's words:
the running value is `edge_transform ∘ running_value`, so the first edge
leaving the source is applied last. -/
def specPathCompose (es : List Edge) (acc : SE3Q) : List Nat → SE3Q
  | [] => acc
  | [_] => acc
  | a :: b :: rest => specPathCompose es (specEdgeTransform es a b * acc) (b :: rest)

/-! ### Embedding of `se3.rs`: `from_array`

The scalar is an arbitrary linearly ordered field standing in for `f64`; the
machine square root is passed as a function parameter (the theorems
instantiate it with `Real.sqrt`).  Division by zero yields `0` in a Lean
field, standing in for the non-finite values `f64` produces. -/

/-- Squared norm of a quaternion given by components. -/
def sumSq4 {K : Type} [Field K] (x y z w : K) : K :=
  x * x + y * y + z * z + w * w

/-- Embeds `UnitQuaternion::from_quaternion`, i.e. `new_normalize`: scale the
quaternion by the reciprocal of its norm.  Returns the components
`(x, y, z, w)`. -/
def normQuat {K : Type} [Field K] (sqrt : K → K) (x y z w : K) : K × K × K × K :=
  let n := sqrt (sumSq4 x y z w)
  (x / n, y / n, z / n, w / n)

/-- Tolerance `1e-6` used by the rotation-matrix checks in `from_array`. -/
def orthoEps {K : Type} [Field K] : K := 1 / 1000000

/-- Embeds `Matrix3::is_special_orthogonal(1e-6)` of `nalgebra` on a
row-major 3×3 matrix: `MᵀM` is entrywise within `1e-6` of the identity and
the determinant is positive. -/
def isSpecialOrthogonal {K : Type} [LinearOrderedField K]
    (m11 m12 m13 m21 m22 m23 m31 m32 m33 : K) : Bool :=
  let d11 := m11 * m11 + m21 * m21 + m31 * m31
  let d12 := m11 * m12 + m21 * m22 + m31 * m32
  let d13 := m11 * m13 + m21 * m23 + m31 * m33
  let d22 := m12 * m12 + m22 * m22 + m32 * m32
  let d23 := m12 * m13 + m22 * m23 + m32 * m33
  let d33 := m13 * m13 + m23 * m23 + m33 * m33
  let det := m11 * (m22 * m33 - m23 * m32) - m12 * (m21 * m33 - m23 * m31)
    + m13 * (m21 * m32 - m22 * m31)
  |d11 - 1| ≤ orthoEps && |d22 - 1| ≤ orthoEps && |d33 - 1| ≤ orthoEps &&
  |d12| ≤ orthoEps && |d13| ≤ orthoEps && |d23| ≤ orthoEps && 0 < det

/-- Embeds `UnitQuaternion::from_rotation_matrix` (Shepperd's method, as in
`nalgebra`); returns quaternion components `(x, y, z, w)`.  The claims below
do not depend on this numeric conversion, only on which branch of
`from_array` succeeds. -/
def quatFromMatrix {K : Type} [LinearOrderedField K] (sqrt : K → K)
    (m11 m12 m13 m21 m22 m23 m31 m32 m33 : K) : K × K × K × K :=
  let tr := m11 + m22 + m33
  if 0 < tr then
    let denom := sqrt (tr + 1) * 2
    ((m32 - m23) / denom, (m13 - m31) / denom, (m21 - m12) / denom, denom / 4)
  else if m22 < m11 ∧ m33 < m11 then
    let denom := sqrt (1 + m11 - m22 - m33) * 2
    (denom / 4, (m12 + m21) / denom, (m13 + m31) / denom, (m32 - m23) / denom)
  else if m33 < m22 then
    let denom := sqrt (1 + m22 - m11 - m33) * 2
    ((m12 + m21) / denom, denom / 4, (m23 + m32) / denom, (m13 - m31) / denom)
  else
    let denom := sqrt (1 + m33 - m11 - m22) * 2
    ((m13 + m31) / denom, (m23 + m32) / denom, denom / 4, (m21 - m12) / denom)

/-- Embeds `se3::from_array`: the input length selects the interpretation
(7: translation + quaternion; 3: translation only; 4: quaternion only;
9: row-major rotation matrix; 16: row-major homogeneous matrix; anything
else fails).  The length-4 and length-7 quaternions go through
`from_quaternion` (normalization); the matrix branches require
`is_special_orthogonal(1e-6)` of the rotation part; the bottom row of a 4×4
input is not validated, as in the source. -/
def fromArray {K : Type} [LinearOrderedField K] (sqrt : K → K) :
    List K → Option (SE3 K)
  | [x, y, z, qx, qy, qz, qw] =>
    let q := normQuat sqrt qx qy qz qw
    some ⟨x, y, z, q.1, q.2.1, q.2.2.1, q.2.2.2⟩
  | [x, y, z] => some ⟨x, y, z, 0, 0, 0, 1⟩
  | [qx, qy, qz, qw] =>
    let q := normQuat sqrt qx qy qz qw
    some ⟨0, 0, 0, q.1, q.2.1, q.2.2.1, q.2.2.2⟩
  | [m11, m12, m13, m21, m22, m23, m31, m32, m33] =>
    if isSpecialOrthogonal m11 m12 m13 m21 m22 m23 m31 m32 m33 then
      let q := quatFromMatrix sqrt m11 m12 m13 m21 m22 m23 m31 m32 m33
      some ⟨0, 0, 0, q.1, q.2.1, q.2.2.1, q.2.2.2⟩
    else none
  | [m11, m12, m13, t1, m21, m22, m23, t2, m31, m32, m33, t3, _, _, _, _] =>
    if isSpecialOrthogonal m11 m12 m13 m21 m22 m23 m31 m32 m33 then
      let q := quatFromMatrix sqrt m11 m12 m13 m21 m22 m23 m31 m32 m33
      some ⟨t1, t2, t3, q.1, q.2.1, q.2.2.1, q.2.2.2⟩
    else none
  | _ => none

/-! ## Theorems

First a layer of lemmas about the union–find cycle detector, then the
invariant of reachable graphs, then the path search, then the claims. -/

theorem unionStep_eq_of_eq {rep : Nat → Nat} {x y : Nat} (a b : Nat) (h : rep x = rep y) :
    unionStep rep a b x = unionStep rep a b y := by
  simp only [unionStep, h]

theorem runRep_eq_of_eq {x y : Nat} {rep : Nat → Nat} {es : List (Nat × Nat)}
    (h : rep x = rep y) : runRep rep es x = runRep rep es y := by
  induction es generalizing rep with
  | nil => exact h
  | cons e es ih => exact ih (unionStep_eq_of_eq e.1 e.2 h)

theorem runRep_mem {a b : Nat} (rep : Nat → Nat) {es : List (Nat × Nat)}
    (h : (a, b) ∈ es) : runRep rep es a = runRep rep es b := by
  induction es generalizing rep with
  | nil => cases h
  | cons e es ih =>
    rcases List.mem_cons.mp h with h | h
    · cases h
      show runRep (unionStep rep a b) es a = runRep (unionStep rep a b) es b
      apply runRep_eq_of_eq
      simp [unionStep]
    · exact ih _ h

theorem acyclicGo_append (rep : Nat → Nat) (es es' : List (Nat × Nat)) :
    acyclicGo rep (es ++ es') = (acyclicGo rep es && acyclicGo (runRep rep es) es') := by
  induction es generalizing rep with
  | nil => simp [acyclicGo, runRep]
  | cons e es ih =>
    obtain ⟨a, b⟩ := e
    by_cases hab : rep a = rep b <;> simp [acyclicGo, runRep, hab, ih]

theorem acyclic_not_connected {rep : Nat → Nat} {es : List (Nat × Nat)} {c d : Nat}
    (h : acyclicGo rep es = true) (hm : (c, d) ∈ es) : rep c ≠ rep d := by
  induction es generalizing rep with
  | nil => cases hm
  | cons e es ih =>
    obtain ⟨x, y⟩ := e
    by_cases hxy : rep x = rep y
    · simp [acyclicGo, hxy] at h
    · simp only [acyclicGo, if_neg hxy] at h
      rcases List.mem_cons.mp hm with hcd | hcd
      · cases hcd; exact hxy
      · intro hcdeq
        exact ih h hcd (unionStep_eq_of_eq x y hcdeq)

theorem adjacent_pair_mem {es : List Edge} {a b : Nat} (h : adjacentB es a b = true) :
    (a, b) ∈ edgePairs es ∨ (b, a) ∈ edgePairs es := by
  rcases List.any_eq_true.mp h with ⟨e, he, hpe⟩
  simp only [Bool.or_eq_true, Bool.and_eq_true, beq_iff_eq] at hpe
  rcases hpe with ⟨h1, h2⟩ | ⟨h1, h2⟩
  · exact Or.inl (List.mem_map.mpr ⟨e, he, by simp [h1, h2]⟩)
  · exact Or.inr (List.mem_map.mpr ⟨e, he, by simp [h1, h2]⟩)

theorem adjacent_connected {es : List Edge} {a b : Nat} (rep : Nat → Nat)
    (h : adjacentB es a b = true) :
    runRep rep (edgePairs es) a = runRep rep (edgePairs es) b := by
  rcases adjacent_pair_mem h with hm | hm
  · exact runRep_mem rep hm
  · exact (runRep_mem rep hm).symm

theorem chain_connected {es : List Edge} (rep : Nat → Nat) :
    ∀ {p : List Nat} {a b : Nat}, isChainB es p = true → p.head? = some a →
    p.getLast? = some b →
    runRep rep (edgePairs es) a = runRep rep (edgePairs es) b := by
  intro p
  induction p with
  | nil => intro a b _ h1 _; cases h1
  | cons x q ih =>
    intro a b hc h1 h2
    cases q with
    | nil =>
      cases h1; cases h2; rfl
    | cons y r =>
      cases h1
      rw [List.getLast?_cons_cons] at h2
      simp only [isChainB, Bool.and_eq_true] at hc
      exact (adjacent_connected rep hc.1).trans (ih hc.2 rfl h2)

theorem pairKey_eq {e1 e2 : Edge} (h : pairKey e1 = pairKey e2) :
    (e1.src = e2.src ∧ e1.dst = e2.dst) ∨ (e1.src = e2.dst ∧ e1.dst = e2.src) := by
  unfold pairKey at h
  split_ifs at h <;> simp only [Prod.mk.injEq] at h <;> omega

theorem acyclic_nodupKeys {es : List Edge} :
    ∀ {rep : Nat → Nat}, acyclicGo rep (edgePairs es) = true → nodupKeysB es = true := by
  induction es with
  | nil => intro rep _; rfl
  | cons e es ih =>
    intro rep h
    have hpairs : edgePairs (e :: es) = (e.src, e.dst) :: edgePairs es := rfl
    rw [hpairs] at h
    by_cases hxy : rep e.src = rep e.dst
    · simp [acyclicGo, hxy] at h
    · simp only [acyclicGo, if_neg hxy] at h
      simp only [nodupKeysB, Bool.and_eq_true, Bool.not_eq_true']
      refine ⟨?_, ih h⟩
      rw [List.any_eq_false]
      intro e2 he2
      simp only [beq_iff_eq]
      intro hkey
      have hmerge : unionStep rep e.src e.dst e.src = unionStep rep e.src e.dst e.dst := by
        simp [unionStep]
      have hmem : (e2.src, e2.dst) ∈ edgePairs es := List.mem_map.mpr ⟨e2, he2, rfl⟩
      apply acyclic_not_connected h hmem
      rcases pairKey_eq hkey with ⟨hs, hd⟩ | ⟨hs, hd⟩
      · rw [hs, hd]; exact hmerge
      · rw [hs, hd]; exact hmerge.symm

theorem acyclic_no_self_loop {es : List Edge} {rep : Nat → Nat}
    (h : acyclicGo rep (edgePairs es) = true) : es.all (fun e => e.src != e.dst) = true := by
  rw [List.all_eq_true]
  intro e he
  have hmem : (e.src, e.dst) ∈ edgePairs es := List.mem_map.mpr ⟨e, he, rfl⟩
  have := acyclic_not_connected h hmem
  simp only [bne_iff_ne, ne_eq]
  intro hcontra
  exact this (congrArg rep hcontra)

theorem acyclic_edgesSimple {g : TfGraph} (h : acyclicGo id (edgePairs g.edges) = true) :
    edgesSimple g = true := by
  simp only [edgesSimple, Bool.and_eq_true]
  exact ⟨acyclic_nodupKeys h, acyclic_no_self_loop h⟩

theorem edgePairs_append (es es' : List Edge) :
    edgePairs (es ++ es') = edgePairs es ++ edgePairs es' :=
  List.map_append _ _ _

theorem edgePairs_setWeight (es : List Edge) (i : Nat) (tf : SE3Q) :
    edgePairs (setWeight es i tf) = edgePairs es := by
  induction es generalizing i with
  | nil => rfl
  | cons e es ih =>
    cases i with
    | zero => rfl
    | succ j =>
      show (e.src, e.dst) :: edgePairs (setWeight es j tf) = (e.src, e.dst) :: edgePairs es
      rw [ih]

theorem setWeight_endpoints {es : List Edge} {i : Nat} {tf : SE3Q} {e : Edge}
    (h : e ∈ setWeight es i tf) : ∃ e2 ∈ es, e.src = e2.src ∧ e.dst = e2.dst := by
  induction es generalizing i with
  | nil => cases h
  | cons e0 es ih =>
    cases i with
    | zero =>
      rcases List.mem_cons.mp h with h | h
      · exact ⟨e0, List.mem_cons_self _ _, by subst h; exact ⟨rfl, rfl⟩⟩
      · exact ⟨e, List.mem_cons_of_mem _ h, rfl, rfl⟩
    | succ j =>
      rcases List.mem_cons.mp h with h | h
      · exact ⟨e0, List.mem_cons_self _ _, by subst h; exact ⟨rfl, rfl⟩⟩
      · obtain ⟨e2, he2, hh⟩ := ih h
        exact ⟨e2, List.mem_cons_of_mem _ he2, hh⟩

theorem swapRemove_append_last (es : List α) (x : α) :
    swapRemove (es ++ [x]) es.length = es := by
  simp [swapRemove, List.getLast?_concat, List.dropLast_concat,
    List.set_eq_of_length_le (le_refl es.length)]

theorem findNode_some {g : TfGraph} {s : String} {i : Nat} (h : findNode g s = some i) :
    ∃ hlt : i < g.nodes.length, g.nodes[i] = s := by
  unfold findNode at h
  rw [List.findIdx?_eq_some_iff_getElem] at h
  obtain ⟨hlt, hp, _⟩ := h
  exact ⟨hlt, by simpa using hp⟩

theorem findNode_none {g : TfGraph} {s : String} (h : findNode g s = none) : s ∉ g.nodes := by
  unfold findNode at h
  rw [List.findIdx?_eq_none_iff] at h
  intro hm
  have := h s hm
  simp at this

theorem findOrAddNode_edges (g : TfGraph) (s : String) :
    (findOrAddNode g s).1.edges = g.edges := by
  unfold findOrAddNode
  split <;> rfl

theorem findOrAddNode_extends (g : TfGraph) (s : String) :
    g.nodes <+: (findOrAddNode g s).1.nodes := by
  unfold findOrAddNode
  split
  · exact List.prefix_refl _
  · exact List.prefix_append _ _

theorem findOrAddNode_idx_lt (g : TfGraph) (s : String) :
    (findOrAddNode g s).2 < (findOrAddNode g s).1.nodes.length := by
  unfold findOrAddNode
  split
  next i h => exact (findNode_some h).1
  next h => simp

theorem findOrAddNode_nodup {g : TfGraph} (s : String) (h : g.nodes.Nodup) :
    (findOrAddNode g s).1.nodes.Nodup := by
  unfold findOrAddNode
  split
  · exact h
  next hn =>
    rw [List.nodup_append]
    refine ⟨h, List.nodup_singleton s, ?_⟩
    intro x hx hx2
    rw [List.mem_singleton] at hx2
    exact findNode_none hn (hx2 ▸ hx)

theorem addTf_eq_core (g : TfGraph) (src dst : String) (tf : SE3Q) :
    addTf g src dst tf =
      addTfCore (findOrAddNode (findOrAddNode g src).1 dst).1 (findOrAddNode g src).2
        (findOrAddNode (findOrAddNode g src).1 dst).2 tf := rfl

theorem inv_addTfCore {g2 : TfGraph} {a b : Nat}
    (hacyc : acyclicGo id (edgePairs g2.edges) = true)
    (hnodup : g2.nodes.Nodup) (hvalid : edgesValid g2)
    (ha : a < g2.nodes.length) (hb : b < g2.nodes.length) (tf : SE3Q) :
    Inv (addTfCore g2 a b tf).1 := by
  have happend : ∀ es2 : List Edge,
      es2 = g2.edges ++ [({ src := a, dst := b, w := tf } : Edge)] →
      Inv ((if isCyclicUndirected { g2 with edges := es2 } then
          (({ nodes := g2.nodes, edges := swapRemove es2 g2.edges.length } : TfGraph), (none : Option Unit))
        else ({ nodes := g2.nodes, edges := es2 }, some ())).1) := by
    intro es2 hes2
    subst hes2
    split
    next hcyc =>
      show Inv { nodes := g2.nodes, edges := swapRemove (g2.edges ++ [({ src := a, dst := b, w := tf } : Edge)]) g2.edges.length }
      rw [swapRemove_append_last]
      exact ⟨hacyc, hnodup, hvalid⟩
    next hcyc =>
      have hq : acyclicGo id (edgePairs (g2.edges ++ [({ src := a, dst := b, w := tf } : Edge)])) = true := by
        cases h2 : acyclicGo id (edgePairs (g2.edges ++ [({ src := a, dst := b, w := tf } : Edge)])) with
        | false => exact absurd (by simp [isCyclicUndirected, h2]) hcyc
        | true => rfl
      refine ⟨hq, hnodup, ?_⟩
      intro e he
      rcases List.mem_append.mp he with he | he
      · exact hvalid e he
      · rw [List.mem_singleton] at he
        subst he
        exact ⟨ha, hb⟩
  unfold addTfCore
  cases hfe : findEdgeUndirected g2.edges a b with
  | none =>
    simp only [hfe]
    exact happend _ rfl
  | some pr =>
    obtain ⟨i, dir⟩ := pr
    cases dir with
    | Incoming =>
      simp only [hfe]
      exact happend _ rfl
    | Outgoing =>
      simp only [hfe]
      have hnc : isCyclicUndirected { g2 with edges := setWeight g2.edges i tf } = false := by
        simp only [isCyclicUndirected, edgePairs_setWeight, hacyc, Bool.not_true]
      rw [hnc, if_neg (by decide)]
      refine ⟨by simpa [edgePairs_setWeight] using hacyc, hnodup, ?_⟩
      intro e he
      obtain ⟨e2, he2, hs, hd⟩ := setWeight_endpoints he
      rw [hs, hd]
      exact hvalid e2 he2

theorem inv_addTf {g : TfGraph} (hg : Inv g) (src dst : String) (tf : SE3Q) :
    Inv (addTf g src dst tf).1 := by
  obtain ⟨hacyc, hnodup, hvalid⟩ := hg
  have e1 := findOrAddNode_edges g src
  have e2 := findOrAddNode_edges (findOrAddNode g src).1 dst
  have p1 := findOrAddNode_extends g src
  have p2 := findOrAddNode_extends (findOrAddNode g src).1 dst
  have l1 := findOrAddNode_idx_lt g src
  have l2 := findOrAddNode_idx_lt (findOrAddNode g src).1 dst
  rw [addTf_eq_core]
  apply inv_addTfCore
  · rw [e2, e1]; exact hacyc
  · exact findOrAddNode_nodup dst (findOrAddNode_nodup src hnodup)
  · intro e he
    rw [e2, e1] at he
    obtain ⟨hs, hd⟩ := hvalid e he
    have hle : g.nodes.length ≤ (findOrAddNode (findOrAddNode g src).1 dst).1.nodes.length :=
      le_trans p1.length_le p2.length_le
    exact ⟨lt_of_lt_of_le hs hle, lt_of_lt_of_le hd hle⟩
  · exact lt_of_lt_of_le l1 p2.length_le
  · exact l2

theorem setWeight_getD_ne (es : List Edge) (tf : SE3Q) :
    ∀ {i j : Nat}, j ≠ i → ∀ d : Edge, (setWeight es i tf).getD j d = es.getD j d := by
  induction es with
  | nil => intro i j _ d; cases i <;> rfl
  | cons e es ih =>
    intro i j hne d
    cases i with
    | zero =>
      cases j with
      | zero => exact absurd rfl hne
      | succ k => simp [setWeight, List.getD_cons_succ]
    | succ m =>
      cases j with
      | zero => simp [setWeight, List.getD_cons_zero]
      | succ k =>
        simp only [setWeight, List.getD_cons_succ]
        exact ih (fun h => hne (congrArg Nat.succ h)) d

theorem setWeight_getD_eq (es : List Edge) (tf : SE3Q) :
    ∀ {i : Nat}, i < es.length → ∀ d : Edge,
      (setWeight es i tf).getD i d = { es.getD i d with w := tf } := by
  induction es with
  | nil => intro i h d; simp at h
  | cons e es ih =>
    intro i h d
    cases i with
    | zero => simp [setWeight, List.getD_cons_zero]
    | succ k =>
      simp only [setWeight, List.getD_cons_succ]
      exact ih (by simpa using h) d

theorem findOrAddNode_found {g : TfGraph} {s : String} {i : Nat} (h : findNode g s = some i) :
    findOrAddNode g s = (g, i) := by
  unfold findOrAddNode
  rw [h]

theorem findOrAddNode_new {g : TfGraph} {s : String} (h : findNode g s = none) :
    findOrAddNode g s = ({ g with nodes := g.nodes ++ [s] }, g.nodes.length) := by
  unfold findOrAddNode
  rw [h]

theorem findNode_append_self {g : TfGraph} {s : String} (h : findNode g s = none) :
    findNode { g with nodes := g.nodes ++ [s] } s = some g.nodes.length := by
  unfold findNode at h ⊢
  rw [List.findIdx?_append, h]
  simp [List.findIdx?_cons]

theorem addTfCore_reject {g : TfGraph} {a b : Nat} (tf : SE3Q)
    (hfe : List.findIdx? (fun e => e.src == a && e.dst == b) g.edges = none)
    (hconn : runRep id (edgePairs g.edges) a = runRep id (edgePairs g.edges) b) :
    addTfCore g a b tf = (g, none) := by
  have hcyc : isCyclicUndirected
      { g with edges := g.edges ++ [({ src := a, dst := b, w := tf } : Edge)] } = true := by
    have hpx : edgePairs (g.edges ++ [({ src := a, dst := b, w := tf } : Edge)]) =
        edgePairs g.edges ++ [(a, b)] := by
      rw [edgePairs_append]; rfl
    simp only [isCyclicUndirected, hpx, acyclicGo_append]
    have h2 : acyclicGo (runRep id (edgePairs g.edges)) [(a, b)] = false := by
      simp [acyclicGo, hconn]
    simp [h2]
  have hFD : findEdgeUndirected g.edges a b = none ∨
      ∃ j, findEdgeUndirected g.edges a b = some (j, EdgeDir.Incoming) := by
    unfold findEdgeUndirected
    rw [hfe]
    cases h2 : List.findIdx? (fun e => e.src == b && e.dst == a) g.edges with
    | none => exact Or.inl rfl
    | some j => exact Or.inr ⟨j, rfl⟩
  rcases hFD with hF | ⟨j, hF⟩ <;>
  · unfold addTfCore
    simp only [hF, hcyc, if_true]
    rw [swapRemove_append_last]

theorem addTfCore_overwrite {g : TfGraph} {a b i : Nat} (tf : SE3Q)
    (hfe : List.findIdx? (fun e => e.src == a && e.dst == b) g.edges = some i)
    (hacyc : acyclicGo id (edgePairs g.edges) = true) :
    addTfCore g a b tf = ({ g with edges := setWeight g.edges i tf }, some ()) := by
  have hF : findEdgeUndirected g.edges a b = some (i, EdgeDir.Outgoing) := by
    unfold findEdgeUndirected
    rw [hfe]
  have hnc : isCyclicUndirected { g with edges := setWeight g.edges i tf } = false := by
    simp only [isCyclicUndirected, edgePairs_setWeight, hacyc, Bool.not_true]
  unfold addTfCore
  simp only [hF, hnc]
  rw [if_neg (by decide)]

theorem inv_foldl (cs : List (String × String × SE3Q)) :
    ∀ g : TfGraph, Inv g →
      Inv (cs.foldl (fun g c => (addTf g c.1 c.2.1 c.2.2).1) g) := by
  induction cs with
  | nil => intro g hg; exact hg
  | cons c cs ih => intro g hg; exact ih _ (inv_addTf hg c.1 c.2.1 c.2.2)

theorem inv_emptyGraph : Inv emptyGraph :=
  ⟨rfl, List.nodup_nil, fun e he => absurd he (List.not_mem_nil e)⟩

theorem inv_applyCalls (cs : List (String × String × SE3Q)) : Inv (applyCalls cs) :=
  inv_foldl cs emptyGraph inv_emptyGraph

/-- C1: for every sequence of `add_transform` calls starting from the empty
graph, the graph is acyclic in its undirected structure after every call —
the union–find cycle detector of `is_cyclic_undirected` (which also fires on
self-loops and parallel edges) reports `false` on the resulting graph, i.e.
every call, successful or failed, leaves a forest. -/
theorem c1_always_forest (cs : List (String × String × SE3Q)) :
    isCyclicUndirected (applyCalls cs) = false := by
  have h := (inv_applyCalls cs).1
  simp [isCyclicUndirected, h]

/-- C2: after every sequence of `add_transform` calls starting from the empty
graph, the stored edges are pairwise distinct as unordered endpoint pairs and
none is a self-loop — so at most one edge exists between any pair of distinct
frames.  In particular a call whose direction is the reverse of the stored
canonical direction leaves a single edge between the pair (the reversed
duplicate is appended, detected as a cycle, and removed again), contrary to
the spec's §9 open question. -/
theorem c2_at_most_one_edge (cs : List (String × String × SE3Q)) :
    edgesSimple (applyCalls cs) = true :=
  acyclic_edgesSimple (inv_applyCalls cs).1

/-- C9: after every sequence of `add_transform` calls starting from the empty
graph, the stored frame names are pairwise distinct: `find_or_add_node`
reuses an existing node instead of duplicating it. -/
theorem c9_names_distinct (cs : List (String × String × SE3Q)) :
    (applyCalls cs).nodes.Nodup :=
  (inv_applyCalls cs).2.1

/-- C5 (amended): `add_transform(x, x, tf)` always fails on a graph without
self-loops and never touches the edge set, but it is not mutation-free as the
spec claims: when `x` is absent, `find_or_add_node` creates the node before
the cycle check and the rollback removes only the tentative edge, so the node
survives. -/
theorem c5_self_loop_reject (g : TfGraph) (x : String) (tf : SE3Q)
    (hns : (g.edges.all fun e => e.src != e.dst) = true) :
    addTf g x x tf =
      ((if (findNode g x).isSome then g else { g with nodes := g.nodes ++ [x] }), none) := by
  have hprobe : ∀ (g2 : TfGraph) (i : Nat), g2.edges = g.edges →
      List.findIdx? (fun e => e.src == i && e.dst == i) g2.edges = none := by
    intro g2 i hE
    rw [hE, List.findIdx?_eq_none_iff]
    intro e he
    have hne := List.all_eq_true.mp hns e he
    rw [bne_iff_ne] at hne
    rw [Bool.eq_false_iff]
    intro hcon
    rw [Bool.and_eq_true, beq_iff_eq, beq_iff_eq] at hcon
    exact hne (hcon.1.trans hcon.2.symm)
  cases hfn : findNode g x with
  | some i =>
    simp only [addTf_eq_core, findOrAddNode_found hfn, hfn]
    exact addTfCore_reject tf (hprobe g i rfl) rfl
  | none =>
    simp only [addTf_eq_core, findOrAddNode_new hfn,
      findOrAddNode_found (findNode_append_self hfn), hfn]
    exact addTfCore_reject tf (hprobe _ _ rfl) rfl

/-- C5 counterexample: the claim asserts `add_transform(x, x, tf)` leaves the
node set unchanged even when `x` was absent; in fact on the empty graph the
call fails but creates (and keeps) the node `x`. -/
theorem c5_counterexample :
    (addTf emptyGraph "x" "x" SE3.identity).2 = none ∧
    (addTf emptyGraph "x" "x" SE3.identity).1.nodes = ["x"] ∧
    (addTf emptyGraph "x" "x" SE3.identity).1 ≠ emptyGraph := by
  decide

/-- Witness for the amended C5 theorem on a concrete input. -/
theorem c5_self_loop_reject_witness :
    ((emptyGraph.edges.all fun e => e.src != e.dst) = true) ∧
    addTf emptyGraph "y" "y" SE3.identity =
      ((if (findNode emptyGraph "y").isSome then emptyGraph
        else { emptyGraph with nodes := emptyGraph.nodes ++ ["y"] }), none) :=
  ⟨by decide, c5_self_loop_reject emptyGraph "y" SE3.identity (by decide)⟩

/-- C4 (amended): if both frames exist and are already connected by a walk,
and no edge is stored in the canonical direction src→dst, then
`add_transform(src, dst, tf)` fails and leaves the graph — node set, edge
set and every stored transform — bit-for-bit unchanged.  (When a canonical
src→dst edge does exist, the call instead succeeds and overwrites it; see the
counterexample.) -/
theorem c4_connected_reject {g : TfGraph} {src dst : String} {a b : Nat}
    {p : List Nat} (tf : SE3Q)
    (hs : findNode g src = some a) (hd : findNode g dst = some b)
    (hp : isChainB g.edges p = true) (h1 : p.head? = some a) (h2 : p.getLast? = some b)
    (hnc : (g.edges.all fun e => !(e.src == a && e.dst == b)) = true) :
    addTf g src dst tf = (g, none) := by
  simp only [addTf_eq_core, findOrAddNode_found hs, findOrAddNode_found hd]
  apply addTfCore_reject
  · rw [List.findIdx?_eq_none_iff]
    intro e he
    have hne := List.all_eq_true.mp hnc e he
    cases h2 : (e.src == a && e.dst == b) with
    | false => rfl
    | true => rw [h2] at hne; simp at hne
  · exact chain_connected id hp h1 h2

/-- C4 counterexample: the claim asserts the call fails whenever the two
frames are connected; but when the connecting path is a single edge stored in
the same canonical direction, `add_tf` succeeds and overwrites the stored
transform. -/
theorem c4_counterexample :
    (findNode (applyCalls [("a", "b", SE3.identity)]) "a" = some 0) ∧
    (findNode (applyCalls [("a", "b", SE3.identity)]) "b" = some 1) ∧
    (isChainB (applyCalls [("a", "b", SE3.identity)]).edges [0, 1] = true) ∧
    (addTf (applyCalls [("a", "b", SE3.identity)]) "a" "b"
      (⟨1, 0, 0, 0, 0, 0, 1⟩ : SE3Q)).2 = some () ∧
    (addTf (applyCalls [("a", "b", SE3.identity)]) "a" "b"
      (⟨1, 0, 0, 0, 0, 0, 1⟩ : SE3Q)).1 ≠ applyCalls [("a", "b", SE3.identity)] := by
  decide

/-- Witness for the amended C4 theorem: frames "a" and "b" connected through
"c", no direct canonical edge; the call is rejected and the graph is
returned unchanged. -/
theorem c4_connected_reject_witness :
    (findNode (applyCalls [("a", "c", SE3.identity), ("c", "b", SE3.identity)]) "a" = some 0) ∧
    (isChainB (applyCalls [("a", "c", SE3.identity), ("c", "b", SE3.identity)]).edges
      [0, 1, 2] = true) ∧
    addTf (applyCalls [("a", "c", SE3.identity), ("c", "b", SE3.identity)]) "a" "b"
        SE3.identity =
      (applyCalls [("a", "c", SE3.identity), ("c", "b", SE3.identity)], none) :=
  ⟨by decide, by decide,
    @c4_connected_reject (applyCalls [("a", "c", SE3.identity), ("c", "b", SE3.identity)])
      "a" "b" 0 2 [0, 1, 2] SE3.identity (by decide) (by decide) (by decide) (by decide)
      (by decide) (by decide)⟩

/-- C7: if the graph is acyclic and an edge is already stored from src to dst
in the same canonical direction as the call, `add_transform` succeeds and
overwrites that edge's transform in place: the node set is untouched, every
edge keeps its endpoints and canonical direction, all other edges keep their
transforms, and the matched edge's transform becomes `tf`. -/
theorem c7_overwrite_in_place {g : TfGraph} {src dst : String} {a b : Nat} (tf : SE3Q)
    (hcyc : isCyclicUndirected g = false)
    (hs : findNode g src = some a) (hd : findNode g dst = some b)
    (hex : (g.edges.any fun e => e.src == a && e.dst == b) = true) :
    ∃ i, List.findIdx? (fun e => e.src == a && e.dst == b) g.edges = some i ∧
      addTf g src dst tf = ({ g with edges := setWeight g.edges i tf }, some ()) ∧
      edgePairs (setWeight g.edges i tf) = edgePairs g.edges ∧
      (∀ (j : Nat) (d : Edge), j ≠ i → (setWeight g.edges i tf).getD j d = g.edges.getD j d) ∧
      ∀ d : Edge, (setWeight g.edges i tf).getD i d = { g.edges.getD i d with w := tf } := by
  have hacyc : acyclicGo id (edgePairs g.edges) = true := by
    cases h2 : acyclicGo id (edgePairs g.edges) with
    | false => rw [isCyclicUndirected, h2] at hcyc; simp at hcyc
    | true => rfl
  have hidx : ∃ i, List.findIdx? (fun e => e.src == a && e.dst == b) g.edges = some i := by
    cases hI : List.findIdx? (fun e => e.src == a && e.dst == b) g.edges with
    | none =>
      rw [List.findIdx?_eq_none_iff] at hI
      rcases List.any_eq_true.mp hex with ⟨e, he, hpe⟩
      rw [hI e he] at hpe
      cases hpe
    | some i => exact ⟨i, rfl⟩
  obtain ⟨i, hI⟩ := hidx
  have hlt : i < g.edges.length := by
    rw [List.findIdx?_eq_some_iff_getElem] at hI
    exact hI.1
  refine ⟨i, hI, ?_, edgePairs_setWeight _ _ _,
    fun j d hj => setWeight_getD_ne _ _ hj d, fun d => setWeight_getD_eq _ _ hlt d⟩
  simp only [addTf_eq_core, findOrAddNode_found hs, findOrAddNode_found hd]
  exact addTfCore_overwrite tf hI hacyc

/-- Witness for the C7 theorem on a concrete input. -/
theorem c7_overwrite_in_place_witness :
    isCyclicUndirected (applyCalls [("a", "b", SE3.identity)]) = false ∧
    ∃ i, List.findIdx?
        (fun e => e.src == 0 && e.dst == 1) (applyCalls [("a", "b", SE3.identity)]).edges
        = some i ∧
      addTf (applyCalls [("a", "b", SE3.identity)]) "a" "b" (⟨3, 0, 0, 0, 0, 0, 1⟩ : SE3Q) =
        ({ applyCalls [("a", "b", SE3.identity)] with
            edges := setWeight (applyCalls [("a", "b", SE3.identity)]).edges i
              (⟨3, 0, 0, 0, 0, 0, 1⟩ : SE3Q) }, some ()) ∧
      edgePairs (setWeight (applyCalls [("a", "b", SE3.identity)]).edges i
          (⟨3, 0, 0, 0, 0, 0, 1⟩ : SE3Q)) =
        edgePairs (applyCalls [("a", "b", SE3.identity)]).edges ∧
      (∀ (j : Nat) (d : Edge), j ≠ i →
        (setWeight (applyCalls [("a", "b", SE3.identity)]).edges i
          (⟨3, 0, 0, 0, 0, 0, 1⟩ : SE3Q)).getD j d =
        (applyCalls [("a", "b", SE3.identity)]).edges.getD j d) ∧
      ∀ d : Edge,
        (setWeight (applyCalls [("a", "b", SE3.identity)]).edges i
          (⟨3, 0, 0, 0, 0, 0, 1⟩ : SE3Q)).getD i d =
        { (applyCalls [("a", "b", SE3.identity)]).edges.getD i d with
            w := (⟨3, 0, 0, 0, 0, 0, 1⟩ : SE3Q) } :=
  ⟨by decide,
    @c7_overwrite_in_place (applyCalls [("a", "b", SE3.identity)]) "a" "b" 0 1
      (⟨3, 0, 0, 0, 0, 0, 1⟩ : SE3Q) (by decide) (by decide) (by decide) (by decide)⟩

/-- C6: `load_json` is all-or-nothing.  The `serde_json` parse of the
external reader is embedded as the `parsed` argument.  Whenever the call
fails — parse error or a cyclic candidate — the in-memory graph is exactly
the one from before the call; whenever it succeeds, the in-memory graph is
exactly the parsed candidate (which the acyclicity re-check, run before any
replacement, certified acyclic).  No partial merge is possible. -/
theorem c6_load_atomic (g : TfGraph) (parsed : Option TfGraph) :
    ((loadJson g parsed).2 = false → (loadJson g parsed).1 = g) ∧
    ((loadJson g parsed).2 = true →
      parsed = some (loadJson g parsed).1 ∧
      isCyclicUndirected (loadJson g parsed).1 = false) := by
  unfold loadJson
  cases parsed with
  | none => simp
  | some cand => cases hc : isCyclicUndirected cand <;> simp [hc]

/-- Witness for the C6 theorem on concrete inputs. -/
theorem c6_load_atomic_witness :
    (loadJson (applyCalls [("a", "b", SE3.identity)]) none).2 = false ∧
    (loadJson (applyCalls [("a", "b", SE3.identity)]) none).1 =
      applyCalls [("a", "b", SE3.identity)] :=
  ⟨by decide, (c6_load_atomic (applyCalls [("a", "b", SE3.identity)]) none).1 (by decide)⟩

/-- C8 counterexample: the claim states `from_array` fails on a length-4
array whose quaternion is not normalizable to unit length, e.g. the all-zero
array.  In the source the length-4 branch is unconditionally
`Some(convert(UnitQuaternion::from_quaternion(...)))`: `from_quaternion`
normalizes by dividing by the norm and never reports failure, so the call
succeeds even on the all-zero array (producing non-finite components in
`f64`, embedded here as division by zero). -/
theorem c8_counterexample :
    (fromArray Real.sqrt [(0 : ℝ), 0, 0, 0]).isSome = true := rfl

/-- C8 (amended): `from_array` on a length-4 array never fails; the result
has zero translation, and when the squared norm of the input quaternion is
nonzero the rotation part is the input quaternion scaled by a positive
factor onto the unit sphere (a normalized unit quaternion). -/
theorem c8_quat_only (a : List ℝ) (hlen : a.length = 4)
    (hnz : (a.getD 0 0) ^ 2 + (a.getD 1 0) ^ 2 + (a.getD 2 0) ^ 2 + (a.getD 3 0) ^ 2 ≠ 0) :
    ∃ t : SE3 ℝ, fromArray Real.sqrt a = some t ∧
      t.tx = 0 ∧ t.ty = 0 ∧ t.tz = 0 ∧
      t.qx ^ 2 + t.qy ^ 2 + t.qz ^ 2 + t.qw ^ 2 = 1 ∧
      ∃ c : ℝ, 0 < c ∧ t.qx = c * a.getD 0 0 ∧ t.qy = c * a.getD 1 0 ∧
        t.qz = c * a.getD 2 0 ∧ t.qw = c * a.getD 3 0 := by
  rcases a with _ | ⟨x, a⟩; · simp at hlen
  rcases a with _ | ⟨y, a⟩; · simp at hlen
  rcases a with _ | ⟨z, a⟩; · simp at hlen
  rcases a with _ | ⟨w, a⟩; · simp at hlen
  have hnil : a = [] := by
    simpa [List.length_eq_zero] using hlen
  subst hnil
  simp only [List.getD_cons_zero, List.getD_cons_succ] at hnz ⊢
  have hS : (0 : ℝ) ≤ x * x + y * y + z * z + w * w :=
    add_nonneg (add_nonneg (add_nonneg (mul_self_nonneg x) (mul_self_nonneg y))
      (mul_self_nonneg z)) (mul_self_nonneg w)
  have hSne : x * x + y * y + z * z + w * w ≠ 0 := by
    intro h
    exact hnz (by rw [← h]; ring)
  have hn : 0 < Real.sqrt (x * x + y * y + z * z + w * w) :=
    Real.sqrt_pos.mpr (lt_of_le_of_ne hS (Ne.symm hSne))
  have hn2 : Real.sqrt (x * x + y * y + z * z + w * w) ^ 2 = x * x + y * y + z * z + w * w :=
    Real.sq_sqrt hS
  refine ⟨⟨0, 0, 0,
      x / Real.sqrt (x * x + y * y + z * z + w * w),
      y / Real.sqrt (x * x + y * y + z * z + w * w),
      z / Real.sqrt (x * x + y * y + z * z + w * w),
      w / Real.sqrt (x * x + y * y + z * z + w * w)⟩,
    rfl, rfl, rfl, rfl, ?_,
    ⟨1 / Real.sqrt (x * x + y * y + z * z + w * w), one_div_pos.mpr hn,
      by ring, by ring, by ring, by ring⟩⟩
  have hsplit : (x / Real.sqrt (x * x + y * y + z * z + w * w)) ^ 2 +
      (y / Real.sqrt (x * x + y * y + z * z + w * w)) ^ 2 +
      (z / Real.sqrt (x * x + y * y + z * z + w * w)) ^ 2 +
      (w / Real.sqrt (x * x + y * y + z * z + w * w)) ^ 2 =
      (x * x + y * y + z * z + w * w) /
        Real.sqrt (x * x + y * y + z * z + w * w) ^ 2 := by
    ring
  rw [hsplit, hn2, div_self hSne]

/-- Witness for the amended C8 theorem at the concrete input `[1, 0, 0, 0]`. -/
theorem c8_quat_only_witness :
    (([1, 0, 0, 0] : List ℝ).length = 4) ∧
    ((([1, 0, 0, 0] : List ℝ).getD 0 0) ^ 2 + (([1, 0, 0, 0] : List ℝ).getD 1 0) ^ 2 +
      (([1, 0, 0, 0] : List ℝ).getD 2 0) ^ 2 + (([1, 0, 0, 0] : List ℝ).getD 3 0) ^ 2 ≠ 0) ∧
    ∃ t : SE3 ℝ, fromArray Real.sqrt ([1, 0, 0, 0] : List ℝ) = some t ∧
      t.tx = 0 ∧ t.ty = 0 ∧ t.tz = 0 ∧
      t.qx ^ 2 + t.qy ^ 2 + t.qz ^ 2 + t.qw ^ 2 = 1 ∧
      ∃ c : ℝ, 0 < c ∧ t.qx = c * ([1, 0, 0, 0] : List ℝ).getD 0 0 ∧
        t.qy = c * ([1, 0, 0, 0] : List ℝ).getD 1 0 ∧
        t.qz = c * ([1, 0, 0, 0] : List ℝ).getD 2 0 ∧
        t.qw = c * ([1, 0, 0, 0] : List ℝ).getD 3 0 :=
  ⟨rfl, by show (1 : ℝ) ^ 2 + 0 ^ 2 + 0 ^ 2 + 0 ^ 2 ≠ 0; norm_num,
    c8_quat_only [1, 0, 0, 0] rfl
      (by show (1 : ℝ) ^ 2 + 0 ^ 2 + 0 ^ 2 + 0 ^ 2 ≠ 0; norm_num)⟩

theorem nodupB_iff {p : List Nat} : nodupB p = true ↔ p.Nodup := by
  induction p with
  | nil => simp [nodupB]
  | cons x xs ih =>
    rw [List.nodup_cons, ← ih]
    simp only [nodupB, Bool.and_eq_true, Bool.not_eq_true', and_congr_left_iff]
    intro _
    rw [List.contains_eq_any_beq]
    constructor
    · intro h hm
      have := List.any_eq_false.mp h _ hm
      simp at this
    · intro h
      rw [List.any_eq_false]
      intro z hz
      simp only [beq_iff_eq]
      intro hxz
      exact h (hxz ▸ hz)

theorem adjacentB_symm {es : List Edge} {a b : Nat} (h : adjacentB es a b = true) :
    adjacentB es b a = true := by
  rcases List.any_eq_true.mp h with ⟨e, he, hp⟩
  refine List.any_eq_true.mpr ⟨e, he, ?_⟩
  rw [Bool.or_comm] at hp
  exact hp

theorem adjacent_no_self {es : List Edge} {a : Nat}
    (hns : (es.all fun e => e.src != e.dst) = true) (h : adjacentB es a a = true) : False := by
  rcases List.any_eq_true.mp h with ⟨e, he, hp⟩
  have := List.all_eq_true.mp hns e he
  rw [bne_iff_ne] at this
  simp only [Bool.or_eq_true, Bool.and_eq_true, beq_iff_eq] at hp
  rcases hp with ⟨h1, h2⟩ | ⟨h1, h2⟩ <;> exact this (h1.trans h2.symm)

theorem isChainB_cons_of {es : List Edge} {x y : Nat} {l : List Nat}
    (h1 : adjacentB es x y = true) (h2 : isChainB es (y :: l) = true) :
    isChainB es (x :: y :: l) = true := by
  simp [isChainB, h1, h2]

theorem isChainB_cons_elim {es : List Edge} {x y : Nat} {l : List Nat}
    (h : isChainB es (x :: y :: l) = true) :
    adjacentB es x y = true ∧ isChainB es (y :: l) = true := by
  simpa [isChainB, Bool.and_eq_true] using h

theorem head?_append_cons (p1 : List α) (x : α) (l l' : List α) :
    (p1 ++ x :: l).head? = (p1 ++ x :: l').head? := by
  cases p1 <;> rfl

theorem isChainB_cons_head {es : List Edge} {x h0 : Nat} {L : List Nat}
    (hL : L.head? = some h0) (hadj : adjacentB es x h0 = true)
    (hc : isChainB es L = true) : isChainB es (x :: L) = true := by
  cases L with
  | nil => cases hL
  | cons z L' =>
    rw [List.head?_cons, Option.some.injEq] at hL
    subst hL
    exact isChainB_cons_of hadj hc

theorem getLast?_append_cons_cons (p1 : List Nat) (x y : Nat) (p2 : List Nat) :
    (p1 ++ x :: y :: p2).getLast? = (y :: p2).getLast? := by
  rw [show p1 ++ x :: y :: p2 = (p1 ++ [x]) ++ y :: p2 by simp, List.getLast?_append]
  cases h : (y :: p2).getLast? with
  | none => simp [List.getLast?_eq_none_iff] at h
  | some z => rfl

theorem adjacent_append {es : List Edge} {en : Edge} {x y : Nat}
    (h : adjacentB (es ++ [en]) x y = true) :
    adjacentB es x y = true ∨ (x = en.src ∧ y = en.dst) ∨ (x = en.dst ∧ y = en.src) := by
  rcases List.any_eq_true.mp h with ⟨e, he, hp⟩
  rcases List.mem_append.mp he with he | he
  · exact Or.inl (List.any_eq_true.mpr ⟨e, he, hp⟩)
  · rw [List.mem_singleton] at he
    subst he
    simp only [Bool.or_eq_true, Bool.and_eq_true, beq_iff_eq] at hp
    rcases hp with ⟨h1, h2⟩ | ⟨h1, h2⟩
    · exact Or.inr (Or.inl ⟨h1.symm, h2.symm⟩)
    · exact Or.inr (Or.inr ⟨h2.symm, h1.symm⟩)

theorem chain_downgrade {es : List Edge} {en : Edge} :
    ∀ {q : List Nat}, isChainB (es ++ [en]) q = true →
    (en.src ∉ q ∨ en.dst ∉ q) → isChainB es q = true := by
  intro q
  induction q with
  | nil => intro _ _; rfl
  | cons x xs ih =>
    cases xs with
    | nil => intro _ _; rfl
    | cons y r =>
      intro hc hx
      obtain ⟨hstep, hrest⟩ := isChainB_cons_elim hc
      have hx' : en.src ∉ (y :: r) ∨ en.dst ∉ (y :: r) := by
        rcases hx with hx | hx
        · exact Or.inl fun hm => hx (List.mem_cons_of_mem _ hm)
        · exact Or.inr fun hm => hx (List.mem_cons_of_mem _ hm)
      have hstep' : adjacentB es x y = true := by
        rcases adjacent_append hstep with hold | ⟨h1, h2⟩ | ⟨h1, h2⟩
        · exact hold
        · exfalso
          rcases hx with hx | hx
          · exact hx (by rw [← h1]; exact List.mem_cons_self x _)
          · exact hx (by rw [← h2]; exact List.mem_cons_of_mem _ (List.mem_cons_self y _))
        · exfalso
          rcases hx with hx | hx
          · exact hx (by rw [← h2]; exact List.mem_cons_of_mem _ (List.mem_cons_self y _))
          · exact hx (by rw [← h1]; exact List.mem_cons_self x _)
      exact isChainB_cons_of hstep' (ih hrest hx')

theorem chain_split {es : List Edge} {en : Edge} :
    ∀ {p : List Nat}, isChainB (es ++ [en]) p = true → p.Nodup →
    isChainB es p = true ∨
    ∃ p1 p2,
      (p = p1 ++ en.src :: en.dst :: p2 ∧ isChainB es (p1 ++ [en.src]) = true ∧
        isChainB es (en.dst :: p2) = true) ∨
      (p = p1 ++ en.dst :: en.src :: p2 ∧ isChainB es (p1 ++ [en.dst]) = true ∧
        isChainB es (en.src :: p2) = true) := by
  intro p
  induction p with
  | nil => intro _ _; exact Or.inl rfl
  | cons x xs ih =>
    cases xs with
    | nil => intro _ _; exact Or.inl rfl
    | cons y r =>
      intro hc hnd
      obtain ⟨hstep, hrest⟩ := isChainB_cons_elim hc
      have hxnotin : x ∉ (y :: r) := (List.nodup_cons.mp hnd).1
      rcases adjacent_append hstep with hold | ⟨h1, h2⟩ | ⟨h1, h2⟩
      · rcases ih hrest (List.nodup_cons.mp hnd).2 with hl | ⟨p1, p2, hcase⟩
        · exact Or.inl (isChainB_cons_of hold hl)
        · refine Or.inr ⟨x :: p1, p2, ?_⟩
          rcases hcase with ⟨heq, hseg1, hseg2⟩ | ⟨heq, hseg1, hseg2⟩
          · refine Or.inl ⟨by rw [List.cons_append, ← heq], ?_, hseg2⟩
            have hhead : (p1 ++ [en.src]).head? = some y := by
              rw [show p1 ++ [en.src] = p1 ++ en.src :: ([] : List Nat) from rfl,
                head?_append_cons p1 en.src ([] : List Nat) (en.dst :: p2), ← heq]
              rfl
            rw [List.cons_append]
            exact isChainB_cons_head hhead hold hseg1
          · refine Or.inr ⟨by rw [List.cons_append, ← heq], ?_, hseg2⟩
            have hhead : (p1 ++ [en.dst]).head? = some y := by
              rw [show p1 ++ [en.dst] = p1 ++ en.dst :: ([] : List Nat) from rfl,
                head?_append_cons p1 en.dst ([] : List Nat) (en.src :: p2), ← heq]
              rfl
            rw [List.cons_append]
            exact isChainB_cons_head hhead hold hseg1
      · refine Or.inr ⟨[], r, Or.inl ⟨by rw [h1, h2]; rfl, rfl, ?_⟩⟩
        rw [← h2]
        exact chain_downgrade hrest (Or.inl (h1 ▸ hxnotin))
      · refine Or.inr ⟨[], r, Or.inr ⟨by rw [h1, h2]; rfl, rfl, ?_⟩⟩
        rw [← h2]
        exact chain_downgrade hrest (Or.inr (h1 ▸ hxnotin))

theorem path_connected {es : List Edge} {u v : Nat} {r : List Nat}
    (h : IsPathFromTo es u v r) :
    runRep id (edgePairs es) u = runRep id (edgePairs es) v :=
  chain_connected id h.1 h.2.2.1 h.2.2.2

theorem path_segments {es : List Edge} {en : Edge} {a b : Nat} {r p1 : List Nat}
    {u v : Nat} {p2 : List Nat}
    (hr : IsPathFromTo (es ++ [en]) a b r) (hreq : r = p1 ++ u :: v :: p2)
    (hs1 : isChainB es (p1 ++ [u]) = true) (hs2 : isChainB es (v :: p2) = true) :
    IsPathFromTo es a u (p1 ++ [u]) ∧ IsPathFromTo es v b (v :: p2) := by
  obtain ⟨hc, hnd, h1, h2⟩ := hr
  have hnd' := nodupB_iff.mp hnd
  subst hreq
  have hshape : p1 ++ u :: v :: p2 = (p1 ++ [u]) ++ (v :: p2) := by simp
  refine ⟨⟨hs1, nodupB_iff.mpr ?_, ?_, List.getLast?_concat _⟩,
          ⟨hs2, nodupB_iff.mpr ?_, rfl, ?_⟩⟩
  · refine List.Nodup.sublist ?_ hnd'
    rw [hshape]
    exact List.sublist_append_left _ _
  · rw [show p1 ++ [u] = p1 ++ u :: ([] : List Nat) from rfl,
      head?_append_cons p1 u ([] : List Nat) (v :: p2)]
    exact h1
  · refine List.Nodup.sublist ?_ hnd'
    rw [hshape]
    exact List.sublist_append_right _ _
  · rw [← getLast?_append_cons_cons p1 u v p2]
    exact h2

theorem path_unique : ∀ {es : List Edge}, acyclicGo id (edgePairs es) = true →
    ∀ {a b : Nat} {p q : List Nat},
      IsPathFromTo es a b p → IsPathFromTo es a b q → p = q := by
  intro es
  induction es using List.reverseRecOn with
  | nil =>
    intro _ a b p q hp hq
    have hsing : ∀ {r : List Nat}, IsPathFromTo ([] : List Edge) a b r → r = [a] := by
      intro r hr
      obtain ⟨hc, _, h1, _⟩ := hr
      cases r with
      | nil => cases h1
      | cons x xs =>
        cases xs with
        | nil =>
          rw [List.head?_cons, Option.some.injEq] at h1
          rw [h1]
        | cons y r' =>
          obtain ⟨hadj, _⟩ := isChainB_cons_elim hc
          simp [adjacentB] at hadj
    rw [hsing hp, hsing hq]
  | append_singleton es en ih =>
    intro H a b p q hp hq
    have hpx : edgePairs (es ++ [en]) = edgePairs es ++ [(en.src, en.dst)] := by
      rw [edgePairs_append]; rfl
    rw [hpx, acyclicGo_append, Bool.and_eq_true] at H
    obtain ⟨H1, H2⟩ := H
    have Hns : runRep id (edgePairs es) en.src ≠ runRep id (edgePairs es) en.dst := by
      intro hcontra
      simp [acyclicGo, hcontra] at H2
    have hto : ∀ {r : List Nat}, IsPathFromTo (es ++ [en]) a b r →
        isChainB es r = true → IsPathFromTo es a b r :=
      fun hr hcr => ⟨hcr, hr.2.1, hr.2.2.1, hr.2.2.2⟩
    rcases chain_split hp.1 (nodupB_iff.mp hp.2.1) with hpl | ⟨p1, p2, hpcase⟩ <;>
      rcases chain_split hq.1 (nodupB_iff.mp hq.2.1) with hql | ⟨q1, q2, hqcase⟩
    · exact ih H1 (hto hp hpl) (hto hq hql)
    · exfalso
      have hpconn := path_connected (hto hp hpl)
      rcases hqcase with ⟨hqeq, hqs1, hqs2⟩ | ⟨hqeq, hqs1, hqs2⟩
      · obtain ⟨hqa, hqb⟩ := path_segments hq hqeq hqs1 hqs2
        exact Hns ((path_connected hqa).symm.trans (hpconn.trans (path_connected hqb).symm))
      · obtain ⟨hqa, hqb⟩ := path_segments hq hqeq hqs1 hqs2
        exact Hns ((path_connected hqb).trans (hpconn.symm.trans (path_connected hqa)))
    · exfalso
      have hqconn := path_connected (hto hq hql)
      rcases hpcase with ⟨hpeq, hps1, hps2⟩ | ⟨hpeq, hps1, hps2⟩
      · obtain ⟨hpa, hpb⟩ := path_segments hp hpeq hps1 hps2
        exact Hns ((path_connected hpa).symm.trans (hqconn.trans (path_connected hpb).symm))
      · obtain ⟨hpa, hpb⟩ := path_segments hp hpeq hps1 hps2
        exact Hns ((path_connected hpb).trans (hqconn.symm.trans (path_connected hpa)))
    · rcases hpcase with ⟨hpeq, hps1, hps2⟩ | ⟨hpeq, hps1, hps2⟩ <;>
        rcases hqcase with ⟨hqeq, hqs1, hqs2⟩ | ⟨hqeq, hqs1, hqs2⟩
      · obtain ⟨hpa, hpb⟩ := path_segments hp hpeq hps1 hps2
        obtain ⟨hqa, hqb⟩ := path_segments hq hqeq hqs1 hqs2
        have e1 : p1 ++ [en.src] = q1 ++ [en.src] := ih H1 hpa hqa
        have e2 : en.dst :: p2 = en.dst :: q2 := ih H1 hpb hqb
        rw [hpeq, hqeq, List.append_cancel_right e1, List.tail_eq_of_cons_eq e2]
      · exfalso
        obtain ⟨hpa, hpb⟩ := path_segments hp hpeq hps1 hps2
        obtain ⟨hqa, hqb⟩ := path_segments hq hqeq hqs1 hqs2
        exact Hns ((path_connected hpa).symm.trans (path_connected hqa))
      · exfalso
        obtain ⟨hpa, hpb⟩ := path_segments hp hpeq hps1 hps2
        obtain ⟨hqa, hqb⟩ := path_segments hq hqeq hqs1 hqs2
        exact Hns (((path_connected hpa).symm.trans (path_connected hqa)).symm)
      · obtain ⟨hpa, hpb⟩ := path_segments hp hpeq hps1 hps2
        obtain ⟨hqa, hqb⟩ := path_segments hq hqeq hqs1 hqs2
        have e1 : p1 ++ [en.dst] = q1 ++ [en.dst] := ih H1 hpa hqa
        have e2 : en.src :: p2 = en.src :: q2 := ih H1 hpb hqb
        rw [hpeq, hqeq, List.append_cancel_right e1, List.tail_eq_of_cons_eq e2]

theorem chainInit {es : List Edge} :
    ∀ (q1 : List Nat) (x : Nat) (q2 : List Nat),
      isChainB es (q1 ++ x :: q2) = true → isChainB es (q1 ++ [x]) = true := by
  intro q1
  induction q1 with
  | nil => intro x q2 _; rfl
  | cons z q1 ih =>
    intro x q2 hc
    cases q1 with
    | nil =>
      obtain ⟨hadj, _⟩ := isChainB_cons_elim hc
      simp [isChainB, hadj]
    | cons w q1' =>
      obtain ⟨hadj, hrest⟩ := isChainB_cons_elim hc
      exact isChainB_cons_of hadj (ih x q2 hrest)

theorem isChainB_iff_chain' {es : List Edge} : ∀ {p : List Nat},
    isChainB es p = true ↔ List.Chain' (fun a b => adjacentB es a b = true) p := by
  intro p
  induction p with
  | nil => simp [isChainB]
  | cons x xs ih =>
    cases xs with
    | nil => simp [isChainB]
    | cons y r =>
      rw [List.chain'_cons, ← ih]
      simp [isChainB, Bool.and_eq_true]

theorem path_reverse {es : List Edge} {u v : Nat} {r : List Nat}
    (h : IsPathFromTo es u v r) : IsPathFromTo es v u r.reverse := by
  obtain ⟨hc, hnd, h1, h2⟩ := h
  refine ⟨?_, nodupB_iff.mpr (List.nodup_reverse.mpr (nodupB_iff.mp hnd)), ?_, ?_⟩
  · rw [isChainB_iff_chain'] at hc ⊢
    rw [List.chain'_reverse]
    exact List.Chain'.imp (fun a b hab => adjacentB_symm hab) hc
  · rw [List.head?_reverse]; exact h2
  · rw [List.getLast?_reverse]; exact h1

theorem mem_of_getLast?_eq : ∀ {l : List α} {a : α}, l.getLast? = some a → a ∈ l := by
  intro l
  induction l with
  | nil => intro a h; cases h
  | cons x xs ih =>
    intro a h
    cases xs with
    | nil =>
      have : x = a := by simpa using h
      rw [this]
      exact List.mem_cons_self _ _
    | cons y r =>
      rw [List.getLast?_cons_cons] at h
      exact List.mem_cons_of_mem _ (ih h)

theorem path_self {es : List Edge} {a : Nat} {p : List Nat}
    (h : IsPathFromTo es a a p) : p = [a] := by
  obtain ⟨_, hnd, h1, h2⟩ := h
  cases p with
  | nil => cases h1
  | cons x xs =>
    rw [List.head?_cons, Option.some.injEq] at h1
    subst h1
    cases xs with
    | nil => rfl
    | cons y r =>
      exfalso
      rw [List.getLast?_cons_cons] at h2
      have hmem : x ∈ y :: r := mem_of_getLast?_eq h2
      have hnd' := nodupB_iff.mp hnd
      rw [List.nodup_cons] at hnd'
      exact hnd'.1 hmem

theorem path_cons {es : List Edge} {cur nb dst : Nat} {q : List Nat}
    (hq : IsPathFromTo es nb dst q) (hadj : adjacentB es cur nb = true)
    (hnotin : cur ∉ q) : IsPathFromTo es cur dst (cur :: q) := by
  obtain ⟨hc, hnd, h1, h2⟩ := hq
  refine ⟨isChainB_cons_head h1 hadj hc, nodupB_iff.mpr ?_, rfl, ?_⟩
  · rw [List.nodup_cons]
    exact ⟨hnotin, nodupB_iff.mp hnd⟩
  · cases q with
    | nil => cases h1
    | cons z q' => rw [List.getLast?_cons_cons]; exact h2

theorem adjacent_mem_neighbors {es : List Edge} {a b : Nat}
    (h : adjacentB es a b = true) : b ∈ neighbors es a := by
  rcases List.any_eq_true.mp h with ⟨e, he, hp⟩
  simp only [Bool.or_eq_true, Bool.and_eq_true, beq_iff_eq] at hp
  rw [neighbors, List.mem_filterMap]
  rcases hp with ⟨h1, h2⟩ | ⟨h1, h2⟩
  · exact ⟨e, he, by rw [if_pos h1, h2]⟩
  · by_cases hsa : e.src = a
    · have hdb : e.dst = b := h2.trans (hsa.symm.trans h1)
      exact ⟨e, he, by rw [if_pos hsa, hdb]⟩
    · exact ⟨e, he, by rw [if_neg hsa, if_pos h2, h1]⟩

theorem neighbors_adjacent {es : List Edge} {a b : Nat}
    (h : b ∈ neighbors es a) : adjacentB es a b = true := by
  rw [neighbors, List.mem_filterMap] at h
  obtain ⟨e, he, hf⟩ := h
  refine List.any_eq_true.mpr ⟨e, he, ?_⟩
  by_cases h1 : e.src = a
  · rw [if_pos h1] at hf
    rw [Option.some.injEq] at hf
    simp [h1, hf]
  · by_cases h2 : e.dst = a
    · rw [if_neg h1, if_pos h2] at hf
      rw [Option.some.injEq] at hf
      simp [h2, hf]
    · rw [if_neg h1, if_neg h2] at hf
      cases hf

theorem findSome?_some {f : α → Option β} :
    ∀ {l : List α} {b : β}, l.findSome? f = some b → ∃ a ∈ l, f a = some b := by
  intro l
  induction l with
  | nil => intro b h; rw [List.findSome?_nil] at h; cases h
  | cons x xs ih =>
    intro b h
    rw [List.findSome?_cons] at h
    cases hfx : f x with
    | some c =>
      rw [hfx] at h
      exact ⟨x, List.mem_cons_self _ _, by rw [hfx]; exact h⟩
    | none =>
      rw [hfx] at h
      obtain ⟨a, ha, hfa⟩ := ih h
      exact ⟨a, List.mem_cons_of_mem _ ha, hfa⟩

theorem findSome?_eq_some_of {f : α → Option β} {a : α} {b : β} :
    ∀ {l : List α}, a ∈ l → f a = some b → (∀ x ∈ l, x ≠ a → f x = none) →
    l.findSome? f = some b := by
  intro l
  induction l with
  | nil => intro h; cases h
  | cons x xs ih =>
    intro hmem hfa hothers
    rw [List.findSome?_cons]
    by_cases hxa : x = a
    · subst hxa
      rw [hfa]
    · rw [hothers x (List.mem_cons_self _ _) hxa]
      refine ih ?_ hfa fun z hz hza => hothers z (List.mem_cons_of_mem _ hz) hza
      rcases List.mem_cons.mp hmem with h | h
      · exact absurd h.symm hxa
      · exact h

theorem avoid_not_mem {es : List Edge} (H : acyclicGo id (edgePairs es) = true)
    {q : List Nat} {nb dst cur : Nat}
    (h1 : IsPathFromTo es nb dst q)
    (h2 : ∀ y t, q = nb :: y :: t → some y ≠ some cur)
    (hadj : adjacentB es cur nb = true) : cur ∉ q := by
  intro hmem
  have hns := @acyclic_no_self_loop es id H
  have hcurnb : cur ≠ nb := by
    intro hx
    subst hx
    exact adjacent_no_self hns hadj
  obtain ⟨q1, q2, hq⟩ := List.append_of_mem hmem
  have hrpath : IsPathFromTo es nb cur (q1 ++ [cur]) := by
    obtain ⟨hc, hnd, hh, _⟩ := h1
    subst hq
    refine ⟨chainInit q1 cur q2 hc, nodupB_iff.mpr ?_, ?_, List.getLast?_concat _⟩
    · refine List.Nodup.sublist ?_ (nodupB_iff.mp hnd)
      rw [show q1 ++ cur :: q2 = (q1 ++ [cur]) ++ q2 by simp]
      exact List.sublist_append_left _ _
    · rw [show q1 ++ [cur] = q1 ++ cur :: ([] : List Nat) from rfl,
        head?_append_cons q1 cur ([] : List Nat) q2]
      exact hh
  have hrev : IsPathFromTo es cur nb (q1 ++ [cur]).reverse := path_reverse hrpath
  have hedge : IsPathFromTo es cur nb [cur, nb] := by
    refine ⟨by simp [isChainB, hadj], nodupB_iff.mpr ?_, rfl, rfl⟩
    simp [hcurnb]
  have huniq := path_unique H hrev hedge
  have hq1 : q1 ++ [cur] = [nb, cur] := by
    have := congrArg List.reverse huniq
    rwa [List.reverse_reverse] at this
  have hq1' : q1 = [nb] := by
    have : q1 ++ [cur] = [nb] ++ [cur] := hq1
    exact List.append_cancel_right this
  subst hq1'
  exact h2 cur q2 (by rw [hq]; rfl) rfl

theorem findPath_sound {es : List Edge} (H : acyclicGo id (edgePairs es) = true) {dst : Nat} :
    ∀ (fuel : Nat) (avoid : Option Nat) (cur : Nat) (p : List Nat),
      findPath es dst fuel avoid cur = some p →
      IsPathFromTo es cur dst p ∧ ∀ y t, p = cur :: y :: t → some y ≠ avoid := by
  intro fuel
  induction fuel with
  | zero =>
    intro avoid cur p h
    simp [findPath] at h
  | succ fuel ih =>
    intro avoid cur p h
    rw [findPath] at h
    by_cases hcd : cur = dst
    · rw [if_pos hcd] at h
      rw [Option.some.injEq] at h
      subst h
      refine ⟨⟨rfl, rfl, rfl, by rw [hcd]; rfl⟩, ?_⟩
      intro y t hyt
      simp at hyt
    · rw [if_neg hcd] at h
      obtain ⟨nb, hnbmem, hf⟩ := findSome?_some h
      by_cases hav : some nb = avoid
      · rw [if_pos hav] at hf; cases hf
      · rw [if_neg hav] at hf
        obtain ⟨q, hq, hpq⟩ := Option.map_eq_some'.mp hf
        obtain ⟨hqpath, hqsecond⟩ := ih (some cur) nb q hq
        have hadj : adjacentB es cur nb = true := neighbors_adjacent hnbmem
        have hnotin : cur ∉ q := avoid_not_mem H hqpath hqsecond hadj
        subst hpq
        refine ⟨path_cons hqpath hadj hnotin, ?_⟩
        intro y t hyt
        have hq2 : q = y :: t := List.tail_eq_of_cons_eq hyt
        have hy : y = nb := by
          have := hqpath.2.2.1
          rw [hq2, List.head?_cons, Option.some.injEq] at this
          exact this
        rw [hy]
        exact hav

theorem findPath_complete {es : List Edge} (H : acyclicGo id (edgePairs es) = true) {dst : Nat} :
    ∀ (fuel : Nat) (avoid : Option Nat) (cur : Nat) (p : List Nat),
      IsPathFromTo es cur dst p → p.length ≤ fuel →
      (∀ y t, p = cur :: y :: t → some y ≠ avoid) →
      findPath es dst fuel avoid cur = some p := by
  intro fuel
  induction fuel with
  | zero =>
    intro avoid cur p hp hlen _
    exfalso
    obtain ⟨_, _, h1, _⟩ := hp
    cases p with
    | nil => cases h1
    | cons x xs => simp at hlen
  | succ fuel ih =>
    intro avoid cur p hp hlen havoid
    rw [findPath]
    by_cases hcd : cur = dst
    · subst hcd
      rw [if_pos rfl, path_self hp]
    · rw [if_neg hcd]
      obtain ⟨hc, hnd, h1, h2⟩ := hp
      cases p with
      | nil => cases h1
      | cons x xs =>
        rw [List.head?_cons, Option.some.injEq] at h1
        subst h1
        cases xs with
        | nil =>
          exfalso
          have : x = dst := by simpa using h2
          exact hcd this
        | cons nb rest =>
          obtain ⟨hadj, hcrest⟩ := isChainB_cons_elim hc
          have hnd' := nodupB_iff.mp hnd
          rw [List.nodup_cons] at hnd'
          apply findSome?_eq_some_of (adjacent_mem_neighbors hadj)
          · rw [if_neg (havoid nb rest rfl)]
            rw [ih (some x) nb (nb :: rest)
              ⟨hcrest, nodupB_iff.mpr hnd'.2, rfl, by rw [← List.getLast?_cons_cons]; exact h2⟩
              (by simpa using hlen) ?_]
            · rfl
            · intro y t hyt
              intro heq
              rw [Option.some.injEq] at heq
              subst heq
              apply hnd'.1
              rw [hyt]
              exact List.mem_cons_of_mem _ (List.mem_cons_self _ _)
          · intro z hz hzne
            by_cases hzav : some z = avoid
            · rw [if_pos hzav]
            · rw [if_neg hzav]
              cases hfz : findPath es dst fuel (some x) z with
              | none => rfl
              | some q =>
                exfalso
                obtain ⟨hqpath, hqsec⟩ := findPath_sound H fuel (some x) z q hfz
                have hadjz : adjacentB es x z = true := neighbors_adjacent hz
                have hnotin : x ∉ q := avoid_not_mem H hqpath hqsec hadjz
                have hcurq : IsPathFromTo es x dst (x :: q) := path_cons hqpath hadjz hnotin
                have hpp : IsPathFromTo es x dst (x :: nb :: rest) := ⟨hc, hnd, rfl, h2⟩
                have hequ := path_unique H hcurq hpp
                have hqeq : q = nb :: rest := List.tail_eq_of_cons_eq hequ
                apply hzne
                have := hqpath.2.2.1
                rw [hqeq, List.head?_cons, Option.some.injEq] at this
                exact this.symm

theorem chain_nodes_lt {es : List Edge} {n : Nat}
    (hvalid : ∀ e ∈ es, e.src < n ∧ e.dst < n) :
    ∀ {p : List Nat} {a : Nat}, isChainB es p = true → p.head? = some a → a < n →
      ∀ x ∈ p, x < n := by
  intro p
  induction p with
  | nil => intro a _ _ _ x hx; cases hx
  | cons z xs ih =>
    intro a hc h1 ha x hx
    rw [List.head?_cons, Option.some.injEq] at h1
    subst h1
    rcases List.mem_cons.mp hx with rfl | hx
    · exact ha
    · cases xs with
      | nil => cases hx
      | cons y r =>
        obtain ⟨hadj, hrest⟩ := isChainB_cons_elim hc
        have hy : y < n := by
          rcases List.any_eq_true.mp hadj with ⟨e, he, hpe⟩
          simp only [Bool.or_eq_true, Bool.and_eq_true, beq_iff_eq] at hpe
          rcases hpe with ⟨_, h2⟩ | ⟨h1', _⟩
          · exact h2 ▸ (hvalid e he).2
          · exact h1' ▸ (hvalid e he).1
        exact ih hrest rfl hy x hx

theorem path_length_le {es : List Edge} {n a b : Nat} {p : List Nat}
    (hvalid : ∀ e ∈ es, e.src < n ∧ e.dst < n) (ha : a < n)
    (hp : IsPathFromTo es a b p) : p.length ≤ n := by
  have hmem : ∀ x ∈ p, x < n := chain_nodes_lt hvalid hp.1 hp.2.2.1 ha
  have hnd := nodupB_iff.mp hp.2.1
  have hsub : p ⊆ List.range n := fun x hx => List.mem_range.mpr (hmem x hx)
  have := (hnd.subperm hsub).length_le
  rwa [List.length_range] at this

theorem find?_of_findIdx? {p : Edge → Bool} :
    ∀ {l : List Edge} {i : Nat}, List.findIdx? p l = some i →
      ∀ d, l.find? p = some (l.getD i d) := by
  intro l
  induction l with
  | nil => intro i h d; rw [List.findIdx?_nil] at h; cases h
  | cons x xs ih =>
    intro i h d
    rw [List.findIdx?_cons] at h
    by_cases hx : p x = true
    · rw [if_pos hx, Option.some.injEq] at h
      subst h
      rw [List.find?_cons_of_pos _ hx]
      rfl
    · rw [if_neg hx, List.findIdx?_succ] at h
      obtain ⟨j, hj, hji⟩ := Option.map_eq_some'.mp h
      subst hji
      rw [List.find?_cons_of_neg _ hx,
        show (x :: xs).getD (j + 1) d = xs.getD j d from by simp [List.getD_cons_succ]]
      exact ih hj d

theorem composeAlong_spec {es : List Edge} :
    ∀ {p : List Nat} (acc : SE3Q), isChainB es p = true →
      composeAlong es acc p = some (specPathCompose es acc p) := by
  intro p
  induction p with
  | nil => intro acc _; rfl
  | cons x xs ih =>
    intro acc hc
    cases xs with
    | nil => rfl
    | cons y r =>
      obtain ⟨hadj, hrest⟩ := isChainB_cons_elim hc
      rw [composeAlong, specPathCompose]
      cases hI : List.findIdx? (fun e => e.src == x && e.dst == y) es with
      | some i =>
        have hF : findEdgeUndirected es x y = some (i, EdgeDir.Outgoing) := by
          unfold findEdgeUndirected
          rw [hI]
        rw [hF]
        have hfind := find?_of_findIdx? hI default
        rw [specEdgeTransform, hfind]
        exact ih _ hrest
      | none =>
        cases hJ : List.findIdx? (fun e => e.src == y && e.dst == x) es with
        | some j =>
          have hF : findEdgeUndirected es x y = some (j, EdgeDir.Incoming) := by
            unfold findEdgeUndirected
            rw [hI, hJ]
          rw [hF]
          have hfind1 : es.find? (fun e => e.src == x && e.dst == y) = none := by
            rw [List.find?_eq_none]
            rw [List.findIdx?_eq_none_iff] at hI
            intro e he
            rw [hI e he]
            simp
          have hfind2 := find?_of_findIdx? hJ default
          rw [specEdgeTransform, hfind1, hfind2]
          exact ih _ hrest
        | none =>
          exfalso
          rw [List.findIdx?_eq_none_iff] at hI hJ
          rcases List.any_eq_true.mp hadj with ⟨e, he, hpe⟩
          rw [Bool.or_eq_true] at hpe
          rcases hpe with hh | hh
          · rw [hI e he] at hh; cases hh
          · rw [hJ e he] at hh; cases hh

/-- C3: on every graph reachable by `add_transform` calls, whenever both
frame names resolve and a simple path `p` connects them (by the forest
invariant such a path is unique), `query_tf` returns exactly the transform
obtained by walking `p` — taking each edge's transform in its canonical
direction and its inverse otherwise, accumulating `running = edge ∘ running`
so the first edge leaving the source is applied last (`specPathCompose`, the
specification-side fold) — together with the frame names along `p`; and when
`src = dst` it returns the identity transform with the one-element path
`[src]`. -/
theorem c3_query_composes_path (cs : List (String × String × SE3Q))
    (src dst : String) (a b : Nat) (p : List Nat)
    (hs : findNode (applyCalls cs) src = some a)
    (hd : findNode (applyCalls cs) dst = some b)
    (hp : IsPathFromTo (applyCalls cs).edges a b p) :
    queryTf (applyCalls cs) src dst =
      QueryResult.found (specPathCompose (applyCalls cs).edges SE3.identity p)
        (p.map fun i => (applyCalls cs).nodes.getD i "") ∧
    (src = dst →
      queryTf (applyCalls cs) src dst = QueryResult.found SE3.identity [src]) := by
  obtain ⟨H, hnodup, hvalid⟩ := inv_applyCalls cs
  have ha : a < (applyCalls cs).nodes.length := (findNode_some hs).1
  have hlen : p.length ≤ (applyCalls cs).nodes.length := path_length_le hvalid ha hp
  have hfp : findPath (applyCalls cs).edges b (applyCalls cs).nodes.length none a = some p :=
    findPath_complete H _ none a p hp hlen fun y t _ => by simp
  have hmain : queryTf (applyCalls cs) src dst =
      QueryResult.found (specPathCompose (applyCalls cs).edges SE3.identity p)
        (p.map fun i => (applyCalls cs).nodes.getD i "") := by
    simp only [queryTf, hs, hd, hfp, composeAlong_spec SE3.identity hp.1]
  refine ⟨hmain, ?_⟩
  intro heq
  subst heq
  have hab : a = b := by
    rw [hs, Option.some.injEq] at hd
    exact hd
  subst hab
  have hpsing : p = [a] := path_self hp
  subst hpsing
  rw [hmain]
  have hname : (applyCalls cs).nodes.getD a "" = src := by
    obtain ⟨hlt, hnm⟩ := findNode_some hs
    rw [List.getD_eq_getElem _ _ hlt, hnm]
  rw [List.map_singleton, hname]
  rfl

/-- Witness for the C3 theorem on a concrete reachable graph. -/
theorem c3_query_composes_path_witness :
    (findNode (applyCalls [("a", "b", (⟨7, 0, 0, 0, 0, 0, 1⟩ : SE3Q))]) "a" = some 0) ∧
    (findNode (applyCalls [("a", "b", (⟨7, 0, 0, 0, 0, 0, 1⟩ : SE3Q))]) "b" = some 1) ∧
    IsPathFromTo (applyCalls [("a", "b", (⟨7, 0, 0, 0, 0, 0, 1⟩ : SE3Q))]).edges 0 1 [0, 1] ∧
    queryTf (applyCalls [("a", "b", (⟨7, 0, 0, 0, 0, 0, 1⟩ : SE3Q))]) "a" "b" =
      QueryResult.found
        (specPathCompose (applyCalls [("a", "b", (⟨7, 0, 0, 0, 0, 0, 1⟩ : SE3Q))]).edges
          SE3.identity [0, 1])
        ([0, 1].map fun i =>
          (applyCalls [("a", "b", (⟨7, 0, 0, 0, 0, 0, 1⟩ : SE3Q))]).nodes.getD i "") :=
  ⟨by decide, by decide, by decide,
    (c3_query_composes_path [("a", "b", (⟨7, 0, 0, 0, 0, 0, 1⟩ : SE3Q))] "a" "b" 0 1 [0, 1]
      (by decide) (by decide) (by decide)).1⟩

/-- C10: `query_tf` never reaches the `.unwrap()` panic on any graph
reachable by `add_transform` calls from the empty graph: the edge lookup for
each consecutive pair of nodes on the path found by the search always
succeeds, for every pair of query arguments. -/
theorem c10_query_never_panics (cs : List (String × String × SE3Q))
    (src dst : String) :
    (queryTf (applyCalls cs) src dst).isPanicked = false := by
  obtain ⟨H, hnodup, hvalid⟩ := inv_applyCalls cs
  cases hs : findNode (applyCalls cs) src with
  | none => simp [queryTf, hs, QueryResult.isPanicked]
  | some s =>
    cases hd : findNode (applyCalls cs) dst with
    | none => simp [queryTf, hs, hd, QueryResult.isPanicked]
    | some d =>
      cases hfp : findPath (applyCalls cs).edges d (applyCalls cs).nodes.length none s with
      | none => simp [queryTf, hs, hd, hfp, QueryResult.isPanicked]
      | some p =>
        obtain ⟨hppath, _⟩ := findPath_sound H _ none s p hfp
        simp [queryTf, hs, hd, hfp, composeAlong_spec SE3.identity hppath.1,
          QueryResult.isPanicked]

end Tfgen
